import Mathlib

/-!
Verification of the Rumba backup pipeline (scanner → planner → tape writer →
committer) against its natural-language specification.  The Rust source is
shallowly embedded: the BLAKE3 hash is an abstract parameter `B`, machine
integers become `Nat`/`Int`, the filesystem is a partial map from path strings
to file info, and the redb catalog is a pair of association lists with
overwrite-on-insert semantics.
-/

/-- models.rs: `pub type Hash = [u8; 32]` — a fixed-size hash value, modelled
as a list of byte values. -/
abbrev Hash := List Nat

/-- models.rs `BlobLocation`: physical address of a blob on a tape. -/
structure BlobLocation where
  tape_id : Nat
  offset : Nat
deriving DecidableEq

/-- models.rs `IndexEntry`: path-keyed fast-path record `{mtime, size, hash}`. -/
structure IndexEntry where
  mtime : Int
  size : Nat
  hash : Hash
deriving DecidableEq

/-- models.rs `TreeEntry`: one named child of a directory tree node. -/
structure TreeEntry where
  name : String
  mode : Nat
  hash : Hash
deriving DecidableEq

/-- A file visible to the planner: its content bytes and the result of
reading its modification time (`none` models `modified()` returning `Err`). -/
structure FileInfo where
  content : List Nat
  mtimeRaw : Option Int
deriving DecidableEq

/-- The filesystem as seen through `std::fs::metadata` / `std::fs::read`:
`none` models a failing stat/read for that path. -/
abbrev FS := String → Option FileInfo

/-- scanner.rs `ScannedEntry`: one directory child as reported by the walker. -/
structure ScannedEntry where
  name : String
  is_dir : Bool
  path : String
deriving DecidableEq

/-- scanner.rs `ScannedDir`: a directory path with its name-sorted children. -/
structure ScannedDir where
  path : String
  entries : List ScannedEntry
deriving DecidableEq

/-- db.rs `BackupDb`: the two tables the core actually commits — `blobs`
(hash → location) and `index` (path → IndexEntry), each an association list
where insertion overwrites the existing row for the key. -/
structure Catalog where
  blobs : List (Hash × BlobLocation)
  index : List (String × IndexEntry)
deriving DecidableEq

/-- Lookup in an association list (first matching key wins). -/
def lookupA {κ ν : Type} [DecidableEq κ] : List (κ × ν) → κ → Option ν
  | [], _ => none
  | (k, v) :: rest, q => if q = k then some v else lookupA rest q

/-- Insert-or-overwrite, the semantics of `redb` `table.insert` and of
`HashMap::insert`: replaces the row for the key if present, else appends. -/
def upsert {κ ν : Type} [DecidableEq κ] : List (κ × ν) → κ → ν → List (κ × ν)
  | [], k, v => [(k, v)]
  | (k0, v0) :: rest, k, v =>
    if k = k0 then (k, v) :: rest else (k0, v0) :: upsert rest k v

/-- diff.rs `DiffEngine::check_index`: returns the cached hash when the
index row for the path exists and its `(mtime, size)` equals the probe. -/
def check_index (db : Catalog) (p : String) (mtime : Int) (size : Nat) :
    Option Hash :=
  match lookupA db.index p with
  | some e => if e.mtime = mtime ∧ e.size = size then some e.hash else none
  | none => none

/-- diff.rs `DiffEngine::should_backup_blob`: true iff the blob is absent
from the `blobs` table (the blob is new and must be written). -/
def should_backup_blob (db : Catalog) (h : Hash) : Bool :=
  (lookupA db.blobs h).isNone

/-- pipeline.rs lines 82-84: `modified().map(|t| duration_since(UNIX_EPOCH)
.unwrap_or_default().as_secs() as i64).unwrap_or(0)` — an unreadable mtime
or one before the epoch becomes 0. -/
def effMtime : Option Int → Int
  | none => 0
  | some t => if t < 0 then 0 else t

/-- Little-endian 4-byte encoding of a `u32`. -/
def natToLe4 (n : Nat) : List Nat :=
  [n % 256, n / 256 % 256, n / 65536 % 256, n / 16777216 % 256]

/-- Bytes of a name (`name.as_bytes()`), modelled as the code points of its
characters. -/
def strBytes (s : String) : List Nat := s.toList.map Char.toNat

/-- models.rs `TreeEntry::compute_hash`: BLAKE3 of
`name_bytes || mode_le_u32 || hash`, with the hash function abstract. -/
def TreeEntry.compute_hash (B : List Nat → Hash) (e : TreeEntry) : Hash :=
  B (strBytes e.name ++ natToLe4 e.mode ++ e.hash)

/-- pipeline.rs line 139: `tree_entries.sort_by(|a, b| a.name.cmp(&b.name))`,
a stable ascending sort by entry name. -/
def sortByName (l : List TreeEntry) : List TreeEntry :=
  List.insertionSort (fun a b => a.name ≤ b.name) l

/-- pipeline.rs lines 141-145: the incremental `blake3::Hasher` loop —
update with each entry identity hash in order, then finalize.  Finalizing an
incremental hasher equals hashing the concatenation of the updates. -/
def hasherFold (B : List Nat → Hash) (l : List TreeEntry) : Hash :=
  B (l.foldl (fun acc e => acc ++ TreeEntry.compute_hash B e) [])

/-- pipeline.rs lines 138-145: sort the emitted entries by name, then hash
their concatenated identity hashes. -/
def computeTreeHash (B : List Nat → Hash) (entries : List TreeEntry) : Hash :=
  hasherFold B (sortByName entries)

/-- pipeline.rs `compute_file_hash`: streams the file bytes through BLAKE3;
the result is the hash of the full content, independent of chunking. -/
def compute_file_hash (B : List Nat → Hash) (fi : FileInfo) : Hash :=
  B fi.content

/-- Everything pipeline.rs lines 80-123 derives from one regular file:
its effective mtime, size, content hash (index fast path or rehash) and
whether it must be backed up. -/
structure FileOutcome where
  hash : Hash
  size : Nat
  mtime : Int
  needs : Bool

/-- pipeline.rs lines 82-109: stat, probe the index, rehash on a miss, then
ask the dedup query. -/
def fileOutcome (B : List Nat → Hash) (db : Catalog) (p : String)
    (fi : FileInfo) : FileOutcome :=
  let mtime := effMtime fi.mtimeRaw
  let size := fi.content.length
  let h :=
    match check_index db p mtime size with
    | some h0 => h0
    | none => compute_file_hash B fi
  { hash := h, size := size, mtime := mtime,
    needs := should_backup_blob db h }

/-- What processing the entry list of one directory produces: the emitted
tree entries, the additions to `new_files` and to `total_size`. -/
structure EntriesOut where
  trees : List TreeEntry
  newFiles : List (String × Hash)
  total : Nat
deriving DecidableEq

/-- pipeline.rs lines 64-136: the per-entry loop of one directory.  A dir
child with a known tree hash yields a mode `0o040755` entry; one with no
computed hash is skipped (only logged).  A file child is statted (skip on
failure), classified, and yields a mode `0o100644` entry, extending
`new_files` and `total_size` when the blob is new. -/
def procEntries (B : List Nat → Hash) (fs : FS) (db : Catalog)
    (ths : List (String × Hash)) : List ScannedEntry → EntriesOut
  | [] => ⟨[], [], 0⟩
  | e :: es =>
    let rest := procEntries B fs db ths es
    if e.is_dir then
      match lookupA ths e.path with
      | some h => ⟨⟨e.name, 0o040755, h⟩ :: rest.trees, rest.newFiles, rest.total⟩
      | none => rest
    else
      match fs e.path with
      | none => rest
      | some fi =>
        let o := fileOutcome B db e.path fi
        ⟨⟨e.name, 0o100644, o.hash⟩ :: rest.trees,
          if o.needs then (e.path, o.hash) :: rest.newFiles else rest.newFiles,
          if o.needs then o.size + rest.total else rest.total⟩

/-- The plan the pipeline emits plus the internal path → tree-hash map. -/
structure PlanOut where
  newFiles : List (String × Hash)
  totalSize : Nat
  treeHashes : List (String × Hash)

/-- pipeline.rs lines 60-149: process the directories in the given order,
threading the `tree_hashes` map; each directory contributes its entries'
new files and records its own tree hash. -/
def procDirs (B : List Nat → Hash) (fs : FS) (db : Catalog) :
    List ScannedDir → List (String × Hash) → PlanOut
  | [], ths => ⟨[], 0, ths⟩
  | d :: ds, ths =>
    let eo := procEntries B fs db ths d.entries
    let th := computeTreeHash B eo.trees
    let restPlan := procDirs B fs db ds (upsert ths d.path th)
    ⟨eo.newFiles ++ restPlan.newFiles, eo.total + restPlan.totalSize,
      restPlan.treeHashes⟩

/-- The `tree_hashes` map after processing a list of directories, starting
from a given map (each directory upserts its own path). -/
def thsAfter (B : List Nat → Hash) (fs : FS) (db : Catalog) :
    List ScannedDir → List (String × Hash) → List (String × Hash)
  | [], ths => ths
  | d :: ds, ths =>
    thsAfter B fs db ds
      (upsert ths d.path (computeTreeHash B (procEntries B fs db ths d.entries).trees))

/-- pipeline.rs lines 48-49: sort the accumulated directory paths by
descending path length (leaves before ancestors). -/
def sortDirsDesc (l : List ScannedDir) : List ScannedDir :=
  List.insertionSort (fun a b => b.path.length ≤ a.path.length) l

/-- pipeline.rs `Pipeline::run`: accumulate, sort by descending path length,
process bottom-up, emit the `BackupPlan`. -/
def runPipeline (B : List Nat → Hash) (fs : FS) (db : Catalog)
    (dirs : List ScannedDir) : PlanOut :=
  procDirs B fs db (sortDirsDesc dirs) []

example :
    (runPipeline (fun l => l)
      (fun p => if p = "/r/a" then some ⟨[65], some 3⟩ else none)
      ⟨[], []⟩ [⟨"/r", [⟨"a", false, "/r/a"⟩]⟩]).newFiles
      = [("/r/a", [65])] := by decide

/-- One tar member written by tape.rs `write_plan`: the blob hash, the byte
offset of the member's tar header, and the content size. -/
structure TarEvent where
  hash : Hash
  offset : Nat
  size : Nat
deriving DecidableEq

/-- tape.rs line 93: content bytes rounded up to whole 512-byte tar data
blocks — `((size + 511) / 512) * 512`. -/
def padBlocks (size : Nat) : Nat := (size + 511) / 512 * 512

/-- tape.rs lines 68-101: the member-writing loop of `write_plan`.  For each
planned `(path, hash)` the file is re-read (a failed read aborts the whole
call, as does an injected write error at position `failAt`); the member's
offset is the current offset, which then advances by `512 + padBlocks size`. -/
def writePlanEvents (fs : FS) (failAt : Option Nat) :
    List (String × Hash) → Nat → Nat → Except Unit (List TarEvent)
  | [], _, _ => .ok []
  | (p, h) :: rest, idx, off =>
    if failAt = some idx then .error ()
    else
      match fs p with
      | none => .error ()
      | some fi =>
        let size := fi.content.length
        match writePlanEvents fs failAt rest (idx + 1) (off + 512 + padBlocks size) with
        | .error e => .error e
        | .ok evs => .ok (⟨h, off, size⟩ :: evs)

/-- tape.rs lines 97-100: `blob_locations.insert(*hash, BlobLocation {..})`
executed once per written member, in write order — later members with the
same hash overwrite earlier ones. -/
def locsOf (tid : Nat) (evs : List TarEvent) : List (Hash × BlobLocation) :=
  evs.foldl (fun acc ev => upsert acc ev.hash ⟨tid, ev.offset⟩) []

/-- tape.rs `TapeWriter::write_plan` on a fresh writer (`current_offset = 0`):
returns the write events and the hash → location map, or an error when any
read/write fails. -/
def TapeWriter.write_plan (fs : FS) (tid : Nat) (failAt : Option Nat)
    (nf : List (String × Hash)) :
    Except Unit (List TarEvent × List (Hash × BlobLocation)) :=
  match writePlanEvents fs failAt nf 0 0 with
  | .error e => .error e
  | .ok evs => .ok (evs, locsOf tid evs)

/-- main.rs lines 153-169: one step of the Committer's index loop — re-stat
the path (skip the row silently when the stat fails) and overwrite the index
row with the fresh `(mtime, size)` and the planned hash. -/
def commitIndexStep (fsC : FS) (acc : List (String × IndexEntry))
    (ph : String × Hash) : List (String × IndexEntry) :=
  match fsC ph.1 with
  | none => acc
  | some fi => upsert acc ph.1 ⟨effMtime fi.mtimeRaw, fi.content.length, ph.2⟩

/-- main.rs lines 137-171: the commit transaction — insert every blob
location, then the index rows for `new_files` (re-statted through `fsC`),
atomically producing the new catalog. -/
def commitDb (db : Catalog) (locs : List (Hash × BlobLocation))
    (nf : List (String × Hash)) (fsC : FS) : Catalog :=
  { blobs := locs.foldl (fun acc hl => upsert acc hl.1 hl.2) db.blobs,
    index := nf.foldl (commitIndexStep fsC) db.index }

/-- The fatal error kinds of the tape phase: a write/read error inside
`write_plan`, or the `rustltfs` child exiting non-zero in `finish()`. -/
inductive BackupErr where
  | tapeIoErr
  | tapeRemoteFailed
deriving DecidableEq

/-- Outcome of one `main` run: the error (if any) and the catalog state when
the process exits. -/
structure RunResult where
  err : Option BackupErr
  catalog : Catalog

/-- main.rs `main`, backup path: plan, return early when the plan is empty,
write the plan to tape (`failAt` injects a write error), `finish()`
(`finishOk = false` models the child exiting non-zero), and only then commit.
`fsP` is the filesystem during planning/writing, `fsC` during the commit
re-stat. -/
def runBackup (B : List Nat → Hash) (fsP fsC : FS) (db : Catalog)
    (dirs : List ScannedDir) (failAt : Option Nat) (finishOk : Bool) :
    RunResult :=
  let plan := runPipeline B fsP db dirs
  if plan.newFiles.isEmpty then ⟨none, db⟩
  else
    match TapeWriter.write_plan fsP 1 failAt plan.newFiles with
    | .error _ => ⟨some .tapeIoErr, db⟩
    | .ok (_, locs) =>
      if finishOk then ⟨none, commitDb db locs plan.newFiles fsC⟩
      else ⟨some .tapeRemoteFailed, db⟩

/-- A fully successful backup run: the catalog it leaves behind. -/
def runOnce (B : List Nat → Hash) (fs : FS) (db : Catalog)
    (dirs : List ScannedDir) : Catalog :=
  (runBackup B fs fs db dirs none true).catalog

example :
    (runBackup (fun l => l)
      (fun p => if p = "/r/a" then some ⟨[65], some 3⟩ else none)
      (fun p => if p = "/r/a" then some ⟨[65], some 3⟩ else none)
      ⟨[], []⟩ [⟨"/r", [⟨"a", false, "/r/a"⟩]⟩] none true).catalog.blobs
      = [([65], ⟨1, 0⟩)] := by decide

example :
    (runBackup (fun l => l)
      (fun p => if p = "/r/a" then some ⟨[65], some 3⟩ else none)
      (fun p => if p = "/r/a" then some ⟨[65], some 3⟩ else none)
      ⟨[], []⟩ [⟨"/r", [⟨"a", false, "/r/a"⟩]⟩] none true).catalog.index
      = [("/r/a", ⟨3, 1, [65]⟩)] := by decide

/-- The specification's formula for a directory hash (§3, §8 property 3):
BLAKE3 of the concatenation, over the entries sorted ascending by name, of
each entry's identity hash. -/
def hash_tree_spec (B : List Nat → Hash) (entries : List TreeEntry) : Hash :=
  B (((sortByName entries).map (TreeEntry.compute_hash B)).flatten)

theorem foldl_append_join {α β : Type} (f : α → List β) (l : List α)
    (acc : List β) :
    l.foldl (fun a e => a ++ f e) acc = acc ++ (l.map f).flatten := by
  induction l generalizing acc with
  | nil => simp
  | cons x xs ih => simp [ih]

/-- C4: for every directory with (emitted) entry list `entries`, the tree
hash the pipeline computes equals BLAKE3 of the concatenation, over the
entries sorted ascending by name, of each entry's identity hash
(`name_bytes || mode_le_u32 || hash`); the sorted list is indeed ascending
by name, and an empty directory hashes the empty byte string. -/
theorem tree_hash_formula (B : List Nat → Hash) (entries : List TreeEntry) :
    computeTreeHash B entries = hash_tree_spec B entries ∧
    List.Sorted (fun a b : TreeEntry => a.name ≤ b.name) (sortByName entries) ∧
    computeTreeHash B [] = B [] := by
  refine ⟨?_, ?_, rfl⟩
  · unfold computeTreeHash hasherFold hash_tree_spec
    rw [foldl_append_join]
    simp
  · haveI : IsTotal TreeEntry (fun a b => a.name ≤ b.name) :=
      ⟨fun a b => le_total a.name b.name⟩
    haveI : IsTrans TreeEntry (fun a b => a.name ≤ b.name) :=
      ⟨fun _ _ _ hab hbc => le_trans hab hbc⟩
    exact List.sorted_insertionSort _ _

theorem wpe_head_chain (fs : FS) (failAt : Option Nat) :
    ∀ (nf : List (String × Hash)) (idx off : Nat) (evs : List TarEvent),
      writePlanEvents fs failAt nf idx off = .ok evs →
      (∀ a, evs.head? = some a → a.offset = off) ∧
      List.Chain' (fun a b => b.offset = a.offset + 512 + padBlocks a.size) evs := by
  intro nf
  induction nf with
  | nil =>
    intro idx off evs h
    simp only [writePlanEvents] at h
    cases h
    constructor
    · intro a ha
      cases ha
    · exact List.chain'_nil
  | cons ph rest ih =>
    intro idx off evs h
    obtain ⟨p, hs⟩ := ph
    by_cases hf : failAt = some idx
    · simp [writePlanEvents, hf] at h
    · cases hfs : fs p with
      | none => simp [writePlanEvents, hf, hfs] at h
      | some fi =>
        cases hrec : writePlanEvents fs failAt rest (idx + 1)
            (off + 512 + padBlocks fi.content.length) with
        | error e => simp [writePlanEvents, hf, hfs, hrec] at h
        | ok evs2 =>
          simp only [writePlanEvents, hf, hfs, hrec, if_neg hf] at h
          cases h
          obtain ⟨hhead, hchain⟩ := ih (idx + 1)
            (off + 512 + padBlocks fi.content.length) evs2 hrec
          refine ⟨?_, ?_⟩
          · intro a ha
            simp only [List.head?_cons, Option.some.injEq] at ha
            rw [← ha]
          · rw [List.chain'_cons']
            refine ⟨?_, hchain⟩
            intro b hb
            exact hhead b hb

/-- C5: for every successful `write_plan` on a fresh writer, the first
recorded offset is 0; each next offset is the previous plus
`512 + ceil(size/512)*512`; a zero-size blob advances by exactly 512; and
the recorded offsets are strictly increasing in write order. -/
theorem write_plan_offsets (fs : FS) (nf : List (String × Hash))
    (evs : List TarEvent) (locs : List (Hash × BlobLocation))
    (hok : TapeWriter.write_plan fs 1 none nf = .ok (evs, locs)) :
    (∀ a, evs.head? = some a → a.offset = 0) ∧
    (∀ i (hi : i + 1 < evs.length),
      (evs.get ⟨i + 1, hi⟩).offset
        = (evs.get ⟨i, Nat.lt_of_succ_lt hi⟩).offset + 512
          + ((evs.get ⟨i, Nat.lt_of_succ_lt hi⟩).size + 511) / 512 * 512) ∧
    (∀ i (hi : i + 1 < evs.length),
      (evs.get ⟨i, Nat.lt_of_succ_lt hi⟩).size = 0 →
      (evs.get ⟨i + 1, hi⟩).offset
        = (evs.get ⟨i, Nat.lt_of_succ_lt hi⟩).offset + 512) ∧
    List.Chain' (fun a b => a.offset < b.offset) evs := by
  have hevs : writePlanEvents fs none nf 0 0 = .ok evs := by
    unfold TapeWriter.write_plan at hok
    cases heq : writePlanEvents fs none nf 0 0 with
    | error e => rw [heq] at hok; cases hok
    | ok evs2 =>
      rw [heq] at hok
      simp only [Except.ok.injEq, Prod.mk.injEq] at hok
      rw [hok.1]
  obtain ⟨hhead, hchain⟩ := wpe_head_chain fs none nf 0 0 evs hevs
  have hstep : ∀ i (hi : i + 1 < evs.length),
      (evs.get ⟨i + 1, hi⟩).offset
        = (evs.get ⟨i, Nat.lt_of_succ_lt hi⟩).offset + 512
          + padBlocks (evs.get ⟨i, Nat.lt_of_succ_lt hi⟩).size := by
    intro i hi
    have hlt : i < evs.length - 1 := by omega
    exact List.chain'_iff_get.mp hchain i hlt
  refine ⟨fun a ha => hhead a ha, ?_, ?_, ?_⟩
  · intro i hi
    exact hstep i hi
  · intro i hi hz
    have := hstep i hi
    rw [hz] at this
    simpa [padBlocks] using this
  · refine List.Chain'.imp ?_ hchain
    intro a b hr
    omega

theorem write_plan_offsets_witness :
    (∀ a, (([⟨[1], 0, 0⟩, ⟨[2], 512, 1⟩] : List TarEvent)).head? = some a →
      a.offset = 0) ∧
    (∀ i (hi : i + 1 < ([⟨[1], 0, 0⟩, ⟨[2], 512, 1⟩] : List TarEvent).length),
      (([⟨[1], 0, 0⟩, ⟨[2], 512, 1⟩] : List TarEvent).get ⟨i + 1, hi⟩).offset
        = (([⟨[1], 0, 0⟩, ⟨[2], 512, 1⟩] : List TarEvent).get
            ⟨i, Nat.lt_of_succ_lt hi⟩).offset + 512
          + ((([⟨[1], 0, 0⟩, ⟨[2], 512, 1⟩] : List TarEvent).get
            ⟨i, Nat.lt_of_succ_lt hi⟩).size + 511) / 512 * 512) ∧
    (∀ i (hi : i + 1 < ([⟨[1], 0, 0⟩, ⟨[2], 512, 1⟩] : List TarEvent).length),
      (([⟨[1], 0, 0⟩, ⟨[2], 512, 1⟩] : List TarEvent).get
          ⟨i, Nat.lt_of_succ_lt hi⟩).size = 0 →
      (([⟨[1], 0, 0⟩, ⟨[2], 512, 1⟩] : List TarEvent).get ⟨i + 1, hi⟩).offset
        = (([⟨[1], 0, 0⟩, ⟨[2], 512, 1⟩] : List TarEvent).get
            ⟨i, Nat.lt_of_succ_lt hi⟩).offset + 512) ∧
    List.Chain' (fun a b => a.offset < b.offset)
      ([⟨[1], 0, 0⟩, ⟨[2], 512, 1⟩] : List TarEvent) :=
  write_plan_offsets
    (fun p => if p = "/a" then some ⟨[], some 0⟩
      else if p = "/b" then some ⟨[7], some 0⟩ else none)
    [("/a", [1]), ("/b", [2])]
    [⟨[1], 0, 0⟩, ⟨[2], 512, 1⟩]
    [([1], ⟨1, 0⟩), ([2], ⟨1, 512⟩)]
    rfl

/-- C3: if the tape phase fails — a write error inside `write_plan` or the
`rustltfs` child exiting non-zero in `finish()` — the run makes no catalog
update of any kind: the final catalog is exactly the initial one. -/
theorem tapeFailure_no_commit (B : List Nat → Hash) (fsP fsC : FS)
    (db : Catalog) (dirs : List ScannedDir) (failAt : Option Nat)
    (finishOk : Bool)
    (herr : (runBackup B fsP fsC db dirs failAt finishOk).err ≠ none) :
    (runBackup B fsP fsC db dirs failAt finishOk).catalog = db := by
  by_cases hemp : (runPipeline B fsP db dirs).newFiles.isEmpty
  · simp [runBackup, hemp] at herr
  · cases hwp : TapeWriter.write_plan fsP 1 failAt
        (runPipeline B fsP db dirs).newFiles with
    | error e => simp [runBackup, hemp, hwp]
    | ok pr =>
      obtain ⟨evs, locs⟩ := pr
      cases finishOk with
      | true => simp [runBackup, hemp, hwp] at herr
      | false => simp [runBackup, hemp, hwp]

theorem tapeFailure_no_commit_witness :
    (runBackup (fun l => l)
      (fun p => if p = "/r/a" then some ⟨[65], some 3⟩ else none)
      (fun p => if p = "/r/a" then some ⟨[65], some 3⟩ else none)
      ⟨[], []⟩ [⟨"/r", [⟨"a", false, "/r/a"⟩]⟩] (some 0) true).err ≠ none ∧
    (runBackup (fun l => l)
      (fun p => if p = "/r/a" then some ⟨[65], some 3⟩ else none)
      (fun p => if p = "/r/a" then some ⟨[65], some 3⟩ else none)
      ⟨[], []⟩ [⟨"/r", [⟨"a", false, "/r/a"⟩]⟩] (some 0) true).catalog
      = ⟨[], []⟩ :=
  ⟨by decide,
    tapeFailure_no_commit (fun l => l)
      (fun p => if p = "/r/a" then some ⟨[65], some 3⟩ else none)
      (fun p => if p = "/r/a" then some ⟨[65], some 3⟩ else none)
      ⟨[], []⟩ [⟨"/r", [⟨"a", false, "/r/a"⟩]⟩] (some 0) true (by decide)⟩

/-- C7 counterexample: a directory whose only child is a subdirectory with
no computed tree hash.  The claim says a `TreeEntry` with mode `0o040755` is
still emitted for the child; in fact the child is skipped entirely — the
emitted entry list is empty, and the parent hashes as an empty directory. -/
theorem missingSubdir_counterexample :
    (procEntries (fun l => l) (fun _ => none) ⟨[], []⟩ []
        [⟨"sub", true, "/r/sub"⟩]).trees = [] ∧
    ¬ ((procEntries (fun l => l) (fun _ => none) ⟨[], []⟩ []
        [⟨"sub", true, "/r/sub"⟩]).trees.length = 1) ∧
    (runPipeline (fun l => l) (fun _ => none) ⟨[], []⟩
        [⟨"/r", [⟨"sub", true, "/r/sub"⟩]⟩]).treeHashes
      = [("/r", (fun l => l) [])] := by
  refine ⟨by decide, by decide, by decide⟩

/-- C7 amended: when the Planner meets a directory child whose tree hash is
not in the path → hash map, it does NOT emit a `TreeEntry` for it — the
child is skipped (only logged) and contributes nothing to the parent:
processing the entry list with that child at the head equals processing the
remaining entries alone. -/
theorem missingSubdir_skipped (B : List Nat → Hash) (fs : FS) (db : Catalog)
    (ths : List (String × Hash)) (e : ScannedEntry) (es : List ScannedEntry)
    (hdir : e.is_dir = true) (habsent : lookupA ths e.path = none) :
    procEntries B fs db ths (e :: es) = procEntries B fs db ths es := by
  simp [procEntries, hdir, habsent]

theorem missingSubdir_skipped_witness :
    (⟨"sub", true, "/r/sub"⟩ : ScannedEntry).is_dir = true ∧
    lookupA ([] : List (String × Hash)) "/r/sub" = none ∧
    procEntries (fun l => l) (fun _ => none) ⟨[], []⟩ []
        [⟨"sub", true, "/r/sub"⟩]
      = procEntries (fun l => l) (fun _ => none) ⟨[], []⟩ [] [] :=
  ⟨rfl, rfl,
    missingSubdir_skipped (fun l => l) (fun _ => none) ⟨[], []⟩ []
      ⟨"sub", true, "/r/sub"⟩ [] rfl rfl⟩

/-- C10: a file whose mtime cannot be read (`none`) or precedes the epoch
(negative) gets mtime 0 instead of an error: 0 is the effective mtime, 0 is
what the planner probes `check_index` with, and 0 is what the Committer
stores in the index row for that path. -/
theorem bad_mtime_zero (B : List Nat → Hash) (db : Catalog) (p : String)
    (fi : FileInfo)
    (hbad : fi.mtimeRaw = none ∨ ∃ t, fi.mtimeRaw = some t ∧ t < 0) :
    effMtime fi.mtimeRaw = 0 ∧
    (fileOutcome B db p fi).mtime = 0 ∧
    (fileOutcome B db p fi).hash
      = (match check_index db p 0 fi.content.length with
          | some h0 => h0
          | none => compute_file_hash B fi) ∧
    (∀ (fsC : FS) (acc : List (String × IndexEntry)) (h : Hash),
      fsC p = some fi →
      commitIndexStep fsC acc (p, h) = upsert acc p ⟨0, fi.content.length, h⟩) := by
  have h0 : effMtime fi.mtimeRaw = 0 := by
    rcases hbad with h | ⟨t, ht, hlt⟩
    · rw [h]
      rfl
    · rw [ht]
      simp [effMtime, hlt]
  refine ⟨h0, ?_, ?_, ?_⟩
  · show effMtime fi.mtimeRaw = 0
    exact h0
  · show (match check_index db p (effMtime fi.mtimeRaw) fi.content.length with
      | some h0 => h0
      | none => compute_file_hash B fi) = _
    rw [h0]
  · intro fsC acc h hfsC
    simp [commitIndexStep, hfsC, h0]

theorem bad_mtime_zero_witness :
    effMtime (⟨[9], some (-4)⟩ : FileInfo).mtimeRaw = 0 ∧
    (fileOutcome (fun l => l) ⟨[], []⟩ "/r/neg" ⟨[9], some (-4)⟩).mtime = 0 ∧
    (fileOutcome (fun l => l) ⟨[], []⟩ "/r/neg" ⟨[9], some (-4)⟩).hash
      = (match check_index ⟨[], []⟩ "/r/neg" 0
            (⟨[9], some (-4)⟩ : FileInfo).content.length with
          | some h0 => h0
          | none => compute_file_hash (fun l => l) ⟨[9], some (-4)⟩) ∧
    (∀ (fsC : FS) (acc : List (String × IndexEntry)) (h : Hash),
      fsC "/r/neg" = some ⟨[9], some (-4)⟩ →
      commitIndexStep fsC acc ("/r/neg", h)
        = upsert acc "/r/neg" ⟨0, (⟨[9], some (-4)⟩ : FileInfo).content.length, h⟩) :=
  bad_mtime_zero (fun l => l) ⟨[], []⟩ "/r/neg" ⟨[9], some (-4)⟩
    (Or.inr ⟨-4, rfl, by decide⟩)

theorem lookupA_upsert_self {κ ν : Type} [DecidableEq κ]
    (l : List (κ × ν)) (k : κ) (v : ν) :
    lookupA (upsert l k v) k = some v := by
  induction l with
  | nil => simp [upsert, lookupA]
  | cons kv rest ih =>
    obtain ⟨k0, v0⟩ := kv
    by_cases hk : k = k0
    · simp [upsert, hk, lookupA]
    · simp [upsert, hk, lookupA, ih]

theorem lookupA_upsert_ne {κ ν : Type} [DecidableEq κ]
    (l : List (κ × ν)) (k : κ) (v : ν) (q : κ) (hne : q ≠ k) :
    lookupA (upsert l k v) q = lookupA l q := by
  induction l with
  | nil => simp [upsert, lookupA, hne]
  | cons kv rest ih =>
    obtain ⟨k0, v0⟩ := kv
    by_cases hk : k = k0
    · subst hk
      simp [upsert, lookupA, hne]
    · by_cases hq : q = k0
      · simp [upsert, hk, lookupA, hq]
      · simp [upsert, hk, lookupA, hq, ih]

theorem lookupA_upsert_isSome_mono {κ ν : Type} [DecidableEq κ]
    (l : List (κ × ν)) (k : κ) (v : ν) (q : κ)
    (hq : (lookupA l q).isSome) :
    (lookupA (upsert l k v) q).isSome := by
  by_cases hne : q = k
  · subst hne
    rw [lookupA_upsert_self]
    rfl
  · rw [lookupA_upsert_ne l k v q hne]
    exact hq

theorem blob_foldl_mono (acc : List (Hash × BlobLocation))
    (locs : List (Hash × BlobLocation)) (h : Hash)
    (hacc : (lookupA acc h).isSome) :
    (lookupA (locs.foldl (fun a hl => upsert a hl.1 hl.2) acc) h).isSome := by
  induction locs generalizing acc with
  | nil => exact hacc
  | cons hl rest ih =>
    exact ih (upsert acc hl.1 hl.2) (lookupA_upsert_isSome_mono acc hl.1 hl.2 h hacc)

theorem blob_foldl_present (locs : List (Hash × BlobLocation))
    (acc : List (Hash × BlobLocation)) (h : Hash)
    (hin : (lookupA locs h).isSome) :
    (lookupA (locs.foldl (fun a hl => upsert a hl.1 hl.2) acc) h).isSome := by
  induction locs generalizing acc with
  | nil => simp [lookupA] at hin
  | cons hl rest ih =>
    obtain ⟨k, v⟩ := hl
    by_cases hk : h = k
    · subst hk
      refine blob_foldl_mono (upsert acc h v) rest h ?_
      rw [lookupA_upsert_self]
      rfl
    · refine ih (upsert acc k v) ?_
      simpa [lookupA, hk] using hin

theorem index_foldl_skip (fsC : FS) (p : String)
    (hstat : fsC p = none) (nf : List (String × Hash))
    (acc : List (String × IndexEntry)) :
    lookupA (nf.foldl (commitIndexStep fsC) acc) p = lookupA acc p := by
  induction nf generalizing acc with
  | nil => rfl
  | cons ph rest ih =>
    obtain ⟨q, h⟩ := ph
    by_cases hq : q = p
    · subst hq
      simp only [commitIndexStep, hstat, List.foldl_cons]
      exact ih acc
    · rw [List.foldl_cons]
      rw [ih (commitIndexStep fsC acc (q, h))]
      unfold commitIndexStep
      cases fsC q with
      | none => rfl
      | some fi =>
        exact lookupA_upsert_ne acc q _ p (fun hpq => hq hpq.symm)

theorem wpe_hashes (fs : FS) (failAt : Option Nat) :
    ∀ (nf : List (String × Hash)) (idx off : Nat) (evs : List TarEvent),
      writePlanEvents fs failAt nf idx off = .ok evs →
      evs.map TarEvent.hash = nf.map Prod.snd := by
  intro nf
  induction nf with
  | nil =>
    intro idx off evs h
    simp only [writePlanEvents] at h
    cases h
    rfl
  | cons ph rest ih =>
    intro idx off evs h
    obtain ⟨p, hs⟩ := ph
    by_cases hf : failAt = some idx
    · simp [writePlanEvents, hf] at h
    · cases hfs : fs p with
      | none => simp [writePlanEvents, hf, hfs] at h
      | some fi =>
        cases hrec : writePlanEvents fs failAt rest (idx + 1)
            (off + 512 + padBlocks fi.content.length) with
        | error e => simp [writePlanEvents, hf, hfs, hrec] at h
        | ok evs2 =>
          simp only [writePlanEvents, hf, hfs, hrec, if_neg hf] at h
          cases h
          simp [ih (idx + 1) (off + 512 + padBlocks fi.content.length) evs2 hrec]

theorem locsOf_present (tid : Nat) (evs : List TarEvent) (h : Hash)
    (hin : h ∈ evs.map TarEvent.hash) :
    (lookupA (locsOf tid evs) h).isSome := by
  unfold locsOf
  suffices hgen : ∀ (l : List TarEvent) (acc : List (Hash × BlobLocation)),
      h ∈ l.map TarEvent.hash ∨ (lookupA acc h).isSome →
      (lookupA (l.foldl (fun a ev => upsert a ev.hash ⟨tid, ev.offset⟩) acc) h).isSome by
    exact hgen evs [] (Or.inl hin)
  intro l
  induction l with
  | nil =>
    intro acc hc
    rcases hc with hc | hc
    · simp at hc
    · exact hc
  | cons ev rest ih =>
    intro acc hc
    rw [List.foldl_cons]
    by_cases hk : h = ev.hash
    · subst hk
      refine ih (upsert acc (TarEvent.hash ev) ⟨tid, ev.offset⟩) (Or.inr ?_)
      rw [lookupA_upsert_self]
      rfl
    · rcases hc with hc | hc
      · simp only [List.map_cons, List.mem_cons] at hc
        rcases hc with hc | hc
        · exact absurd hc hk
        · exact ih _ (Or.inl hc)
      · exact ih _ (Or.inr (lookupA_upsert_isSome_mono acc ev.hash _ h hc))

theorem write_plan_ok (fs : FS) (tid : Nat) (failAt : Option Nat)
    (nf : List (String × Hash)) (evs : List TarEvent)
    (locs : List (Hash × BlobLocation))
    (hok : TapeWriter.write_plan fs tid failAt nf = .ok (evs, locs)) :
    writePlanEvents fs failAt nf 0 0 = .ok evs ∧ locs = locsOf tid evs := by
  unfold TapeWriter.write_plan at hok
  cases heq : writePlanEvents fs failAt nf 0 0 with
  | error e => rw [heq] at hok; cases hok
  | ok evs2 =>
    rw [heq] at hok
    simp only [Except.ok.injEq, Prod.mk.injEq] at hok
    exact ⟨by rw [hok.1], by rw [← hok.2, hok.1]⟩

/-- C9: if re-stating a `new_files` path fails during the commit, the run
does not abort: that path's index row is silently left untouched, while the
blob row for its hash (present in the tape writer's location map) is still
inserted, and the whole transaction still produces a catalog. -/
theorem commit_stat_failure_skips_index (fsP fsC : FS) (db : Catalog)
    (nf : List (String × Hash)) (evs : List TarEvent)
    (locs : List (Hash × BlobLocation)) (p : String) (h : Hash)
    (hwp : TapeWriter.write_plan fsP 1 none nf = .ok (evs, locs))
    (hmem : (p, h) ∈ nf) (hstat : fsC p = none) :
    lookupA (commitDb db locs nf fsC).index p = lookupA db.index p ∧
    (lookupA (commitDb db locs nf fsC).blobs h).isSome := by
  obtain ⟨hevs, hlocs⟩ := write_plan_ok fsP 1 none nf evs locs hwp
  constructor
  · exact index_foldl_skip fsC p hstat nf db.index
  · have hins : h ∈ nf.map Prod.snd := by
      exact List.mem_map.mpr ⟨(p, h), hmem, rfl⟩
    have hev : h ∈ evs.map TarEvent.hash := by
      rw [wpe_hashes fsP none nf 0 0 evs hevs]
      exact hins
    have hl : (lookupA locs h).isSome := by
      rw [hlocs]
      exact locsOf_present 1 evs h hev
    exact blob_foldl_present locs db.blobs h hl

theorem commit_stat_failure_skips_index_witness :
    lookupA (commitDb ⟨[], []⟩ [([65], ⟨1, 0⟩)] [("/r/a", [65])]
        (fun _ => none)).index "/r/a"
      = lookupA (⟨[], []⟩ : Catalog).index "/r/a" ∧
    (lookupA (commitDb ⟨[], []⟩ [([65], ⟨1, 0⟩)] [("/r/a", [65])]
        (fun _ => none)).blobs [65]).isSome :=
  commit_stat_failure_skips_index
    (fun p => if p = "/r/a" then some ⟨[65], some 3⟩ else none)
    (fun _ => none) ⟨[], []⟩ [("/r/a", [65])] [⟨[65], 0, 1⟩]
    [([65], ⟨1, 0⟩)] "/r/a" [65] rfl (by decide) rfl

/-- The order the Planner sorts directories into: descending path length. -/
def descLen (a b : ScannedDir) : Prop := b.path.length ≤ a.path.length

theorem thsAfter_mono (B : List Nat → Hash) (fs : FS) (db : Catalog)
    (l : List ScannedDir) (ths : List (String × Hash)) (p : String)
    (hp : (lookupA ths p).isSome) :
    (lookupA (thsAfter B fs db l ths) p).isSome := by
  induction l generalizing ths with
  | nil => exact hp
  | cons d rest ih =>
    exact ih _ (lookupA_upsert_isSome_mono ths d.path _ p hp)

theorem thsAfter_mem (B : List Nat → Hash) (fs : FS) (db : Catalog)
    (l : List ScannedDir) (ths : List (String × Hash)) (p : String)
    (hp : p ∈ l.map ScannedDir.path) :
    (lookupA (thsAfter B fs db l ths) p).isSome := by
  induction l generalizing ths with
  | nil => simp at hp
  | cons d rest ih =>
    simp only [List.map_cons, List.mem_cons] at hp
    rcases hp with hp | hp
    · subst hp
      refine thsAfter_mono B fs db rest _ d.path ?_
      rw [lookupA_upsert_self]
      rfl
    · exact ih _ hp

/-- C8: processing the accumulated directories in descending path-length
order gives the bottom-up invariant.  The pipeline's sort produces such an
order, and in any such order, when a directory `d` is processed, every
subdirectory child of `d` that was itself scanned already has its tree hash
in the path → hash map accumulated over the directories processed before
`d` — because a child path strictly extends (and so is strictly longer
than) its parent's path. -/
theorem descLen_bottom_up (B : List Nat → Hash) (fs : FS) (db : Catalog)
    (dirs : List ScannedDir) (pre post : List ScannedDir) (d : ScannedDir)
    (e : ScannedEntry)
    (hsorted : List.Pairwise descLen (pre ++ d :: post))
    (_hmem : e ∈ d.entries) (_hdir : e.is_dir = true)
    (hext : e.path = d.path ++ "/" ++ e.name)
    (hscanned : e.path ∈ (pre ++ d :: post).map ScannedDir.path) :
    List.Pairwise descLen (sortDirsDesc dirs) ∧
    (lookupA (thsAfter B fs db pre []) e.path).isSome := by
  constructor
  · haveI : IsTotal ScannedDir (fun a b => b.path.length ≤ a.path.length) :=
      ⟨fun a b => le_total b.path.length a.path.length⟩
    haveI : IsTrans ScannedDir (fun a b => b.path.length ≤ a.path.length) :=
      ⟨fun _ _ _ hab hbc => le_trans hbc hab⟩
    exact List.sorted_insertionSort (fun a b => b.path.length ≤ a.path.length) dirs
  · have hlen : d.path.length < e.path.length := by
      rw [hext]
      simp only [String.length_append]
      have : ("/" : String).length = 1 := rfl
      omega
    simp only [List.map_append, List.map_cons, List.mem_append,
      List.mem_cons] at hscanned
    rcases hscanned with hp | hp | hp
    · exact thsAfter_mem B fs db pre [] e.path hp
    · exfalso
      rw [← hp] at hlen
      omega
    · exfalso
      rw [List.pairwise_append] at hsorted
      obtain ⟨-, hcons, hcross⟩ := hsorted
      rw [List.pairwise_cons] at hcons
      obtain ⟨hd, -⟩ := hcons
      obtain ⟨d2, hd2, hpath⟩ := List.mem_map.mp hp
      have := hd d2 hd2
      unfold descLen at this
      rw [hpath] at this
      omega

theorem descLen_bottom_up_witness :
    List.Pairwise descLen
      (sortDirsDesc ([] : List ScannedDir)) ∧
    (lookupA (thsAfter (fun l => l) (fun _ => none) ⟨[], []⟩
      [⟨"/r/s", []⟩] []) "/r/s").isSome :=
  descLen_bottom_up (fun l => l) (fun _ => none) ⟨[], []⟩ []
    [⟨"/r/s", []⟩] [] ⟨"/r", [⟨"s", true, "/r/s"⟩]⟩ ⟨"s", true, "/r/s"⟩
    (by
      refine List.Pairwise.cons ?_ (List.pairwise_singleton _ _)
      intro b hb
      rw [show ([] : List ScannedDir).append
        [⟨"/r", [⟨"s", true, "/r/s"⟩]⟩] = [⟨"/r", [⟨"s", true, "/r/s"⟩]⟩] from rfl,
        List.mem_singleton] at hb
      subst hb
      show ("/r" : String).length ≤ ("/r/s" : String).length
      decide)
    (by decide) rfl (by decide) (by decide)

/-- C1 counterexample: two paths with identical content `[65,65,65]` over an
empty catalog.  The claim says the content's hash appears once in
`new_files` and one tar member is written; in fact the hash appears twice,
two tar members are written (the second at offset 1024), and only the
`blob_locations` map collapses to a single row. -/
theorem dupContent_counterexample :
    ((runPipeline (fun l => l)
      (fun p => if p = "/r/x" then some ⟨[65, 65, 65], some 1⟩
        else if p = "/r/y" then some ⟨[65, 65, 65], some 1⟩ else none)
      ⟨[], []⟩ [⟨"/r", [⟨"x", false, "/r/x"⟩, ⟨"y", false, "/r/y"⟩]⟩]).newFiles.map
        Prod.snd) = [[65, 65, 65], [65, 65, 65]] ∧
    ¬ (((runPipeline (fun l => l)
      (fun p => if p = "/r/x" then some ⟨[65, 65, 65], some 1⟩
        else if p = "/r/y" then some ⟨[65, 65, 65], some 1⟩ else none)
      ⟨[], []⟩ [⟨"/r", [⟨"x", false, "/r/x"⟩, ⟨"y", false, "/r/y"⟩]⟩]).newFiles.map
        Prod.snd).count ([65, 65, 65] : Hash) = 1) ∧
    TapeWriter.write_plan
      (fun p => if p = "/r/x" then some ⟨[65, 65, 65], some 1⟩
        else if p = "/r/y" then some ⟨[65, 65, 65], some 1⟩ else none) 1 none
      (runPipeline (fun l => l)
        (fun p => if p = "/r/x" then some ⟨[65, 65, 65], some 1⟩
          else if p = "/r/y" then some ⟨[65, 65, 65], some 1⟩ else none)
        ⟨[], []⟩ [⟨"/r", [⟨"x", false, "/r/x"⟩, ⟨"y", false, "/r/y"⟩]⟩]).newFiles
      = .ok ([⟨[65, 65, 65], 0, 3⟩, ⟨[65, 65, 65], 1024, 3⟩],
             [([65, 65, 65], ⟨1, 1024⟩)]) ∧
    (procEntries (fun l => l)
      (fun p => if p = "/r/x" then some ⟨[65, 65, 65], some 1⟩
        else if p = "/r/y" then some ⟨[65, 65, 65], some 1⟩ else none)
      ⟨[], []⟩ [] [⟨"x", false, "/r/x"⟩, ⟨"y", false, "/r/y"⟩]).trees
      = [⟨"x", 0o100644, [65, 65, 65]⟩, ⟨"y", 0o100644, [65, 65, 65]⟩] :=
  ⟨by decide, by decide, rfl, by decide⟩

/-- C1 amended: for two distinct file paths with identical content over an
initially empty catalog, one run appends one tar member per path: both paths
enter `new_files` with the same content hash (the hash appears twice), two
tar members are written, the `blob_locations` map nevertheless holds a
single row for that hash (pointing at the second member), and the two tree
entries share the hash. -/
theorem dupContent_two_members (B : List Nat → Hash) (fs : FS)
    (r n1 n2 p1 p2 : String) (c : List Nat) (m1 m2 : Option Int)
    (_hne : p1 ≠ p2)
    (hfs1 : fs p1 = some ⟨c, m1⟩) (hfs2 : fs p2 = some ⟨c, m2⟩) :
    (runPipeline B fs ⟨[], []⟩
        [⟨r, [⟨n1, false, p1⟩, ⟨n2, false, p2⟩]⟩]).newFiles
      = [(p1, B c), (p2, B c)] ∧
    (procEntries B fs ⟨[], []⟩ [] [⟨n1, false, p1⟩, ⟨n2, false, p2⟩]).trees
      = [⟨n1, 0o100644, B c⟩, ⟨n2, 0o100644, B c⟩] ∧
    TapeWriter.write_plan fs 1 none [(p1, B c), (p2, B c)]
      = .ok ([⟨B c, 0, c.length⟩, ⟨B c, 512 + padBlocks c.length, c.length⟩],
             [(B c, ⟨1, 512 + padBlocks c.length⟩)]) := by
  have hpe : procEntries B fs ⟨[], []⟩ [] [⟨n1, false, p1⟩, ⟨n2, false, p2⟩]
      = ⟨[⟨n1, 0o100644, B c⟩, ⟨n2, 0o100644, B c⟩],
         [(p1, B c), (p2, B c)], c.length + (c.length + 0)⟩ := by
    simp [procEntries, hfs1, hfs2, fileOutcome, check_index, lookupA,
      should_backup_blob, compute_file_hash]
  refine ⟨?_, ?_, ?_⟩
  · show (procDirs B fs ⟨[], []⟩
        (sortDirsDesc [⟨r, [⟨n1, false, p1⟩, ⟨n2, false, p2⟩]⟩]) []).newFiles
      = [(p1, B c), (p2, B c)]
    show (procDirs B fs ⟨[], []⟩ [⟨r, [⟨n1, false, p1⟩, ⟨n2, false, p2⟩]⟩]
        []).newFiles = [(p1, B c), (p2, B c)]
    simp [procDirs, hpe]
  · rw [hpe]
  · simp [TapeWriter.write_plan, writePlanEvents, hfs1, hfs2, locsOf, upsert]

theorem dupContent_two_members_witness :
    (runPipeline (fun l => 7 :: l)
        (fun p => if p = "/r/x" then some ⟨[65, 65, 65], some 1⟩
          else if p = "/r/y" then some ⟨[65, 65, 65], some 2⟩ else none)
        ⟨[], []⟩
        [⟨"/r", [⟨"x", false, "/r/x"⟩, ⟨"y", false, "/r/y"⟩]⟩]).newFiles
      = [("/r/x", 7 :: [65, 65, 65]), ("/r/y", 7 :: [65, 65, 65])] ∧
    (procEntries (fun l => 7 :: l)
        (fun p => if p = "/r/x" then some ⟨[65, 65, 65], some 1⟩
          else if p = "/r/y" then some ⟨[65, 65, 65], some 2⟩ else none)
        ⟨[], []⟩ [] [⟨"x", false, "/r/x"⟩, ⟨"y", false, "/r/y"⟩]).trees
      = [⟨"x", 0o100644, 7 :: [65, 65, 65]⟩, ⟨"y", 0o100644, 7 :: [65, 65, 65]⟩] ∧
    TapeWriter.write_plan
        (fun p => if p = "/r/x" then some ⟨[65, 65, 65], some 1⟩
          else if p = "/r/y" then some ⟨[65, 65, 65], some 2⟩ else none) 1 none
        [("/r/x", 7 :: [65, 65, 65]), ("/r/y", 7 :: [65, 65, 65])]
      = .ok ([⟨7 :: [65, 65, 65], 0, ([65, 65, 65] : List Nat).length⟩,
              ⟨7 :: [65, 65, 65], 512 + padBlocks ([65, 65, 65] : List Nat).length,
                ([65, 65, 65] : List Nat).length⟩],
             [(7 :: [65, 65, 65],
               ⟨1, 512 + padBlocks ([65, 65, 65] : List Nat).length⟩)]) :=
  dupContent_two_members (fun l => 7 :: l)
    (fun p => if p = "/r/x" then some ⟨[65, 65, 65], some 1⟩
      else if p = "/r/y" then some ⟨[65, 65, 65], some 2⟩ else none)
    "/r" "x" "y" "/r/x" "/r/y" [65, 65, 65] (some 1) (some 2)
    (by decide) rfl rfl

/-- C2 counterexample: one file backed up from an empty catalog (mtime 5),
then its mtime is bumped to 7 with unchanged content.  The second run plans
nothing, `main` returns at "Nothing to backup" before any catalog write,
and the index row still holds the OLD mtime 5 — not the new mtime 7 the
claim requires. -/
theorem mtimeBump_counterexample :
    (runPipeline (fun l => l)
        (fun q => if q = "/r/a" then some ⟨[65], some 7⟩ else none)
        (runOnce (fun l => l)
          (fun q => if q = "/r/a" then some ⟨[65], some 5⟩ else none)
          ⟨[], []⟩ [⟨"/r", [⟨"a", false, "/r/a"⟩]⟩])
        [⟨"/r", [⟨"a", false, "/r/a"⟩]⟩]).newFiles = [] ∧
    lookupA ((runBackup (fun l => l)
        (fun q => if q = "/r/a" then some ⟨[65], some 7⟩ else none)
        (fun q => if q = "/r/a" then some ⟨[65], some 7⟩ else none)
        (runOnce (fun l => l)
          (fun q => if q = "/r/a" then some ⟨[65], some 5⟩ else none)
          ⟨[], []⟩ [⟨"/r", [⟨"a", false, "/r/a"⟩]⟩])
        [⟨"/r", [⟨"a", false, "/r/a"⟩]⟩] none true).catalog).index "/r/a"
      = some ⟨5, 1, [65]⟩ ∧
    ¬ (lookupA ((runBackup (fun l => l)
        (fun q => if q = "/r/a" then some ⟨[65], some 7⟩ else none)
        (fun q => if q = "/r/a" then some ⟨[65], some 7⟩ else none)
        (runOnce (fun l => l)
          (fun q => if q = "/r/a" then some ⟨[65], some 5⟩ else none)
          ⟨[], []⟩ [⟨"/r", [⟨"a", false, "/r/a"⟩]⟩])
        [⟨"/r", [⟨"a", false, "/r/a"⟩]⟩] none true).catalog).index "/r/a"
      = some ⟨7, 1, [65]⟩) :=
  ⟨by decide, by decide, by decide⟩

/-- C2 amended: after a successful run over a single-file tree from an empty
catalog, bumping the file's mtime without a content change makes the second
run rehash the file (the index probe misses), the hash equals the stored
hash, `should_backup_blob` returns false, `new_files` is empty with
`total_size` 0 — and the run returns early, leaving the catalog (and thus
the index row with the OLD mtime) completely unchanged. -/
theorem mtimeBump_no_index_refresh (B : List Nat → Hash) (fs1 fs2 : FS)
    (c : List Nat) (m1 m2 : Option Int)
    (hfs1 : fs1 "/r/a" = some ⟨c, m1⟩) (hfs2 : fs2 "/r/a" = some ⟨c, m2⟩)
    (hm : effMtime m1 ≠ effMtime m2) :
    runOnce B fs1 ⟨[], []⟩ [⟨"/r", [⟨"a", false, "/r/a"⟩]⟩]
      = ⟨[(B c, ⟨1, 0⟩)], [("/r/a", ⟨effMtime m1, c.length, B c⟩)]⟩ ∧
    check_index ⟨[(B c, ⟨1, 0⟩)], [("/r/a", ⟨effMtime m1, c.length, B c⟩)]⟩
      "/r/a" (effMtime m2) c.length = none ∧
    (fileOutcome B ⟨[(B c, ⟨1, 0⟩)], [("/r/a", ⟨effMtime m1, c.length, B c⟩)]⟩
      "/r/a" ⟨c, m2⟩).hash = B c ∧
    should_backup_blob
      ⟨[(B c, ⟨1, 0⟩)], [("/r/a", ⟨effMtime m1, c.length, B c⟩)]⟩ (B c) = false ∧
    (runPipeline B fs2
        ⟨[(B c, ⟨1, 0⟩)], [("/r/a", ⟨effMtime m1, c.length, B c⟩)]⟩
        [⟨"/r", [⟨"a", false, "/r/a"⟩]⟩]).newFiles = [] ∧
    (runPipeline B fs2
        ⟨[(B c, ⟨1, 0⟩)], [("/r/a", ⟨effMtime m1, c.length, B c⟩)]⟩
        [⟨"/r", [⟨"a", false, "/r/a"⟩]⟩]).totalSize = 0 ∧
    (runBackup B fs2 fs2
        ⟨[(B c, ⟨1, 0⟩)], [("/r/a", ⟨effMtime m1, c.length, B c⟩)]⟩
        [⟨"/r", [⟨"a", false, "/r/a"⟩]⟩] none true).catalog
      = ⟨[(B c, ⟨1, 0⟩)], [("/r/a", ⟨effMtime m1, c.length, B c⟩)]⟩ := by
  have hnf1 : (runPipeline B fs1 ⟨[], []⟩
      [⟨"/r", [⟨"a", false, "/r/a"⟩]⟩]).newFiles = [("/r/a", B c)] := by
    show (procDirs B fs1 ⟨[], []⟩ [⟨"/r", [⟨"a", false, "/r/a"⟩]⟩] []).newFiles
      = [("/r/a", B c)]
    simp [procDirs, procEntries, fileOutcome, check_index, lookupA,
      should_backup_blob, compute_file_hash, hfs1]
  have hrun2 : (runPipeline B fs2
      ⟨[(B c, ⟨1, 0⟩)], [("/r/a", ⟨effMtime m1, c.length, B c⟩)]⟩
      [⟨"/r", [⟨"a", false, "/r/a"⟩]⟩])
      = ⟨[], 0, [("/r", computeTreeHash B [⟨"a", 0o100644, B c⟩])]⟩ := by
    show (procDirs B fs2
      ⟨[(B c, ⟨1, 0⟩)], [("/r/a", ⟨effMtime m1, c.length, B c⟩)]⟩
      [⟨"/r", [⟨"a", false, "/r/a"⟩]⟩] []) = _
    simp [procDirs, procEntries, fileOutcome, check_index, lookupA,
      should_backup_blob, compute_file_hash, hfs2, hm, upsert]
  refine ⟨?_, ?_, ?_, ?_, ?_, ?_, ?_⟩
  · unfold runOnce runBackup
    simp only [hnf1]
    simp only [List.isEmpty_cons, Bool.false_eq_true, if_false]
    have hwp : TapeWriter.write_plan fs1 1 none [("/r/a", B c)]
        = .ok ([⟨B c, 0, c.length⟩], [(B c, ⟨1, 0⟩)]) := by
      simp [TapeWriter.write_plan, writePlanEvents, hfs1, locsOf, upsert]
    rw [hwp]
    simp [commitDb, commitIndexStep, hfs1, upsert]
  · simp [check_index, lookupA, hm]
  · simp [fileOutcome, check_index, lookupA, hm, compute_file_hash]
  · simp [should_backup_blob, lookupA]
  · rw [hrun2]
  · rw [hrun2]
  · unfold runBackup
    simp only [hrun2]
    simp

theorem mtimeBump_no_index_refresh_witness :
    runOnce (fun l => 0 :: l)
      (fun q => if q = "/r/a" then some ⟨[65], some 5⟩ else none)
      ⟨[], []⟩ [⟨"/r", [⟨"a", false, "/r/a"⟩]⟩]
      = ⟨[(0 :: [65], ⟨1, 0⟩)],
         [("/r/a", ⟨effMtime (some 5), ([65] : List Nat).length, 0 :: [65]⟩)]⟩ ∧
    check_index ⟨[(0 :: [65], ⟨1, 0⟩)],
        [("/r/a", ⟨effMtime (some 5), ([65] : List Nat).length, 0 :: [65]⟩)]⟩
      "/r/a" (effMtime (some 7)) ([65] : List Nat).length = none ∧
    (fileOutcome (fun l => 0 :: l)
      ⟨[(0 :: [65], ⟨1, 0⟩)],
        [("/r/a", ⟨effMtime (some 5), ([65] : List Nat).length, 0 :: [65]⟩)]⟩
      "/r/a" ⟨[65], some 7⟩).hash = 0 :: [65] ∧
    should_backup_blob
      ⟨[(0 :: [65], ⟨1, 0⟩)],
        [("/r/a", ⟨effMtime (some 5), ([65] : List Nat).length, 0 :: [65]⟩)]⟩
      (0 :: [65]) = false ∧
    (runPipeline (fun l => 0 :: l)
        (fun q => if q = "/r/a" then some ⟨[65], some 7⟩ else none)
        ⟨[(0 :: [65], ⟨1, 0⟩)],
          [("/r/a", ⟨effMtime (some 5), ([65] : List Nat).length, 0 :: [65]⟩)]⟩
        [⟨"/r", [⟨"a", false, "/r/a"⟩]⟩]).newFiles = [] ∧
    (runPipeline (fun l => 0 :: l)
        (fun q => if q = "/r/a" then some ⟨[65], some 7⟩ else none)
        ⟨[(0 :: [65], ⟨1, 0⟩)],
          [("/r/a", ⟨effMtime (some 5), ([65] : List Nat).length, 0 :: [65]⟩)]⟩
        [⟨"/r", [⟨"a", false, "/r/a"⟩]⟩]).totalSize = 0 ∧
    (runBackup (fun l => 0 :: l)
        (fun q => if q = "/r/a" then some ⟨[65], some 7⟩ else none)
        (fun q => if q = "/r/a" then some ⟨[65], some 7⟩ else none)
        ⟨[(0 :: [65], ⟨1, 0⟩)],
          [("/r/a", ⟨effMtime (some 5), ([65] : List Nat).length, 0 :: [65]⟩)]⟩
        [⟨"/r", [⟨"a", false, "/r/a"⟩]⟩] none true).catalog
      = ⟨[(0 :: [65], ⟨1, 0⟩)],
         [("/r/a", ⟨effMtime (some 5), ([65] : List Nat).length, 0 :: [65]⟩)]⟩ :=
  mtimeBump_no_index_refresh (fun l => 0 :: l)
    (fun q => if q = "/r/a" then some ⟨[65], some 5⟩ else none)
    (fun q => if q = "/r/a" then some ⟨[65], some 7⟩ else none)
    [65] (some 5) (some 7) rfl rfl (by decide)

theorem procEntries_nf_sub (B : List Nat → Hash) (fs : FS) (db : Catalog)
    (ths : List (String × Hash)) (a : ScannedEntry) (as : List ScannedEntry)
    (x : String × Hash)
    (hx : x ∈ (procEntries B fs db ths as).newFiles) :
    x ∈ (procEntries B fs db ths (a :: as)).newFiles := by
  by_cases hd : a.is_dir
  · cases hth : lookupA ths a.path with
    | none => simpa [procEntries, hd, hth] using hx
    | some h0 => simpa [procEntries, hd, hth] using hx
  · cases hfs : fs a.path with
    | none => simpa [procEntries, hd, hfs] using hx
    | some fi =>
      cases hn : (fileOutcome B db a.path fi).needs with
      | false => simpa [procEntries, hd, hfs, hn] using hx
      | true =>
        simp only [procEntries, hd, hfs, hn, Bool.false_eq_true, if_false,
          if_true]
        exact List.mem_cons_of_mem _ hx

theorem nfCharE (B : List Nat → Hash) (fs : FS) (db : Catalog)
    (ths : List (String × Hash)) :
    ∀ (es : List ScannedEntry) (p : String) (h : Hash),
      (p, h) ∈ (procEntries B fs db ths es).newFiles →
      ∃ fi, fs p = some fi ∧ (fileOutcome B db p fi).needs = true ∧
        h = (fileOutcome B db p fi).hash := by
  intro es
  induction es with
  | nil => intro p h hm; simp [procEntries] at hm
  | cons a as ih =>
    intro p h hm
    by_cases hd : a.is_dir
    · cases hth : lookupA ths a.path with
      | none =>
        rw [show procEntries B fs db ths (a :: as) = procEntries B fs db ths as
          from by simp [procEntries, hd, hth]] at hm
        exact ih p h hm
      | some h0 =>
        have : (p, h) ∈ (procEntries B fs db ths as).newFiles := by
          simpa [procEntries, hd, hth] using hm
        exact ih p h this
    · cases hfs : fs a.path with
      | none =>
        have : (p, h) ∈ (procEntries B fs db ths as).newFiles := by
          simpa [procEntries, hd, hfs] using hm
        exact ih p h this
      | some fi =>
        cases hn : (fileOutcome B db a.path fi).needs with
        | false =>
          have : (p, h) ∈ (procEntries B fs db ths as).newFiles := by
            simpa [procEntries, hd, hfs, hn] using hm
          exact ih p h this
        | true =>
          simp only [procEntries, hd, hfs, hn, Bool.false_eq_true, if_false,
            if_true] at hm
          rcases List.mem_cons.mp hm with hm | hm
          · rw [Prod.mk.injEq] at hm
            obtain ⟨hp, hh⟩ := hm
            subst hp
            exact ⟨fi, hfs, hn, hh⟩
          · exact ih p h hm

theorem nfChar (B : List Nat → Hash) (fs : FS) (db : Catalog) :
    ∀ (L : List ScannedDir) (ths : List (String × Hash)) (p : String)
      (h : Hash), (p, h) ∈ (procDirs B fs db L ths).newFiles →
      ∃ fi, fs p = some fi ∧ (fileOutcome B db p fi).needs = true ∧
        h = (fileOutcome B db p fi).hash := by
  intro L
  induction L with
  | nil => intro ths p h hm; simp [procDirs] at hm
  | cons d ds ih =>
    intro ths p h hm
    simp only [procDirs] at hm
    rcases List.mem_append.mp hm with hm | hm
    · exact nfCharE B fs db ths d.entries p h hm
    · exact ih _ p h hm

theorem nfMemE (B : List Nat → Hash) (fs : FS) (db : Catalog)
    (ths : List (String × Hash)) :
    ∀ (es : List ScannedEntry) (e : ScannedEntry) (fi : FileInfo),
      e ∈ es → e.is_dir = false → fs e.path = some fi →
      (fileOutcome B db e.path fi).needs = true →
      (e.path, (fileOutcome B db e.path fi).hash)
        ∈ (procEntries B fs db ths es).newFiles := by
  intro es
  induction es with
  | nil => intro e fi he; simp at he
  | cons a as ih =>
    intro e fi he hd hfs hn
    rcases List.mem_cons.mp he with he | he
    · subst he
      simp only [procEntries, hd, Bool.false_eq_true, if_false, hfs, hn,
        if_true]
      exact List.mem_cons_self _ _
    · exact procEntries_nf_sub B fs db ths a as _ (ih e fi he hd hfs hn)

theorem nfMem (B : List Nat → Hash) (fs : FS) (db : Catalog) :
    ∀ (L : List ScannedDir) (ths : List (String × Hash)) (d : ScannedDir)
      (e : ScannedEntry) (fi : FileInfo),
      d ∈ L → e ∈ d.entries → e.is_dir = false → fs e.path = some fi →
      (fileOutcome B db e.path fi).needs = true →
      (e.path, (fileOutcome B db e.path fi).hash)
        ∈ (procDirs B fs db L ths).newFiles := by
  intro L
  induction L with
  | nil => intro ths d e fi hd; simp at hd
  | cons d0 ds ih =>
    intro ths d e fi hd he hdir hfs hn
    simp only [procDirs]
    rcases List.mem_cons.mp hd with hd | hd
    · subst hd
      exact List.mem_append_left _ (nfMemE B fs db ths d.entries e fi he hdir hfs hn)
    · exact List.mem_append_right _ (ih _ d e fi hd he hdir hfs hn)

theorem allCleanE (B : List Nat → Hash) (fs : FS) (db2 : Catalog)
    (ths : List (String × Hash)) :
    ∀ (es : List ScannedEntry),
      (∀ e ∈ es, e.is_dir = false → ∀ fi, fs e.path = some fi →
        (fileOutcome B db2 e.path fi).needs = false) →
      (procEntries B fs db2 ths es).newFiles = [] ∧
      (procEntries B fs db2 ths es).total = 0 := by
  intro es
  induction es with
  | nil => intro _; exact ⟨rfl, rfl⟩
  | cons a as ih =>
    intro hall
    have hrest := ih (fun e he => hall e (List.mem_cons_of_mem a he))
    by_cases hd : a.is_dir
    · cases hth : lookupA ths a.path with
      | none => simpa [procEntries, hd, hth] using hrest
      | some h0 => simpa [procEntries, hd, hth] using hrest
    · cases hfs : fs a.path with
      | none => simpa [procEntries, hd, hfs] using hrest
      | some fi =>
        have hn : (fileOutcome B db2 a.path fi).needs = false :=
          hall a (List.mem_cons_self a as) (by simpa using hd) fi hfs
        simpa [procEntries, hd, hfs, hn] using hrest

theorem allClean (B : List Nat → Hash) (fs : FS) (db2 : Catalog) :
    ∀ (L : List ScannedDir) (ths : List (String × Hash)),
      (∀ d ∈ L, ∀ e ∈ d.entries, e.is_dir = false → ∀ fi, fs e.path = some fi →
        (fileOutcome B db2 e.path fi).needs = false) →
      (procDirs B fs db2 L ths).newFiles = [] ∧
      (procDirs B fs db2 L ths).totalSize = 0 := by
  intro L
  induction L with
  | nil => intro _ _; exact ⟨rfl, rfl⟩
  | cons d ds ih =>
    intro ths hall
    have hd := allCleanE B fs db2 ths d.entries
      (fun e he => hall d (List.mem_cons_self d ds) e he)
    have hrest := ih
      (upsert ths d.path (computeTreeHash B (procEntries B fs db2 ths d.entries).trees))
      (fun d2 hd2 => hall d2 (List.mem_cons_of_mem d hd2))
    simp [procDirs, hd.1, hd.2, hrest.1, hrest.2]

theorem totalZeroE (B : List Nat → Hash) (fs : FS) (db : Catalog)
    (ths : List (String × Hash)) :
    ∀ (es : List ScannedEntry),
      (procEntries B fs db ths es).newFiles = [] →
      (procEntries B fs db ths es).total = 0 := by
  intro es
  induction es with
  | nil => intro _; rfl
  | cons a as ih =>
    intro hnil
    by_cases hd : a.is_dir
    · cases hth : lookupA ths a.path with
      | none =>
        rw [show procEntries B fs db ths (a :: as) = procEntries B fs db ths as
          from by simp [procEntries, hd, hth]] at hnil ⊢
        exact ih hnil
      | some h0 =>
        have h1 : (procEntries B fs db ths (a :: as)).newFiles
            = (procEntries B fs db ths as).newFiles := by
          simp [procEntries, hd, hth]
        have h2 : (procEntries B fs db ths (a :: as)).total
            = (procEntries B fs db ths as).total := by
          simp [procEntries, hd, hth]
        rw [h2]
        exact ih (h1 ▸ hnil)
    · cases hfs : fs a.path with
      | none =>
        rw [show procEntries B fs db ths (a :: as) = procEntries B fs db ths as
          from by simp [procEntries, hd, hfs]] at hnil ⊢
        exact ih hnil
      | some fi =>
        cases hn : (fileOutcome B db a.path fi).needs with
        | false =>
          have h1 : (procEntries B fs db ths (a :: as)).newFiles
              = (procEntries B fs db ths as).newFiles := by
            simp [procEntries, hd, hfs, hn]
          have h2 : (procEntries B fs db ths (a :: as)).total
              = (procEntries B fs db ths as).total := by
            simp [procEntries, hd, hfs, hn]
          rw [h2]
          exact ih (h1 ▸ hnil)
        | true =>
          exfalso
          have h1 : (procEntries B fs db ths (a :: as)).newFiles
              = (a.path, (fileOutcome B db a.path fi).hash)
                :: (procEntries B fs db ths as).newFiles := by
            simp [procEntries, hd, hfs, hn]
          rw [h1] at hnil
          cases hnil

theorem totalZero (B : List Nat → Hash) (fs : FS) (db : Catalog) :
    ∀ (L : List ScannedDir) (ths : List (String × Hash)),
      (procDirs B fs db L ths).newFiles = [] →
      (procDirs B fs db L ths).totalSize = 0 := by
  intro L
  induction L with
  | nil => intro _ _; rfl
  | cons d ds ih =>
    intro ths hnil
    simp only [procDirs, List.append_eq_nil] at hnil
    simp only [procDirs, totalZeroE B fs db ths d.entries hnil.1,
      ih _ hnil.2]

theorem wpe_total (fs : FS) :
    ∀ (nf : List (String × Hash)) (idx off : Nat),
      (∀ ph ∈ nf, (fs ph.1).isSome) →
      ∃ evs, writePlanEvents fs none nf idx off = .ok evs := by
  intro nf
  induction nf with
  | nil => intro idx off _; exact ⟨[], rfl⟩
  | cons ph rest ih =>
    intro idx off hall
    obtain ⟨p, hs⟩ := ph
    have hp : (fs p).isSome := hall (p, hs) (List.mem_cons_self _ _)
    cases hfs : fs p with
    | none => rw [hfs] at hp; cases hp
    | some fi =>
      obtain ⟨evs2, hevs2⟩ := ih (idx + 1) (off + 512 + padBlocks fi.content.length)
        (fun q hq => hall q (List.mem_cons_of_mem _ hq))
      refine ⟨⟨hs, off, fi.content.length⟩ :: evs2, ?_⟩
      simp [writePlanEvents, hfs, hevs2]

theorem commit_index_lookup (fsC : FS) (p : String) (fip : FileInfo)
    (hp : Hash) (hstat : fsC p = some fip) :
    ∀ (nf : List (String × Hash)) (acc : List (String × IndexEntry)),
      (∀ h2, (p, h2) ∈ nf → h2 = hp) →
      lookupA (nf.foldl (commitIndexStep fsC) acc) p
        = if p ∈ nf.map Prod.fst
          then some ⟨effMtime fip.mtimeRaw, fip.content.length, hp⟩
          else lookupA acc p := by
  intro nf
  induction nf with
  | nil => intro acc _; simp
  | cons qh rest ih =>
    intro acc huniq
    obtain ⟨q, h0⟩ := qh
    by_cases hq : q = p
    · subst hq
      have hh0 : h0 = hp := huniq h0 (List.mem_cons_self _ _)
      rw [List.foldl_cons]
      rw [show commitIndexStep fsC acc (q, h0)
        = upsert acc q ⟨effMtime fip.mtimeRaw, fip.content.length, hp⟩
        from by simp [commitIndexStep, hstat, hh0]]
      rw [ih _ (fun h2 hm => huniq h2 (List.mem_cons_of_mem _ hm))]
      by_cases hmem : q ∈ rest.map Prod.fst
      · simp [hmem]
      · simp only [hmem, if_false]
        rw [lookupA_upsert_self]
        simp
    · rw [List.foldl_cons]
      rw [ih _ (fun h2 hm => huniq h2 (List.mem_cons_of_mem _ hm))]
      have hnq : (p ∈ ((q, h0) :: rest).map Prod.fst) ↔ (p ∈ rest.map Prod.fst) := by
        simp only [List.map_cons, List.mem_cons]
        constructor
        · intro hc
          rcases hc with hc | hc
          · exact absurd hc.symm hq
          · exact hc
        · intro hc
          exact Or.inr hc
      by_cases hmem : p ∈ rest.map Prod.fst
      · simp [hmem, hnq.mpr hmem]
      · have hnmem : ¬ (p ∈ ((q, h0) :: rest).map Prod.fst) :=
          fun hc => hmem (hnq.mp hc)
        simp only [hmem, if_false, hnmem]
        unfold commitIndexStep
        cases fsC q with
        | none => rfl
        | some fi2 => exact lookupA_upsert_ne acc q _ p (fun hc => hq hc.symm)

theorem outcome_with_row (B : List Nat → Hash) (dbB : Catalog) (p : String)
    (fi : FileInfo) (h1 : Hash)
    (hrow : lookupA dbB.index p
      = some ⟨effMtime fi.mtimeRaw, fi.content.length, h1⟩)
    (hblob : (lookupA dbB.blobs h1).isSome) :
    (fileOutcome B dbB p fi).needs = false ∧
    (fileOutcome B dbB p fi).hash = h1 := by
  have hci : check_index dbB p (effMtime fi.mtimeRaw) fi.content.length
      = some h1 := by
    simp [check_index, hrow]
  constructor
  · simp only [fileOutcome, hci]
    unfold should_backup_blob
    cases hl : lookupA dbB.blobs h1 with
    | none => rw [hl] at hblob; cases hblob
    | some v => rfl
  · simp only [fileOutcome, hci]

theorem outcome_same_index (B : List Nat → Hash) (dbA dbB : Catalog)
    (p : String) (fi : FileInfo)
    (hidx : lookupA dbB.index p = lookupA dbA.index p)
    (hblob : (lookupA dbB.blobs (fileOutcome B dbA p fi).hash).isSome) :
    (fileOutcome B dbB p fi).needs = false ∧
    (fileOutcome B dbB p fi).hash = (fileOutcome B dbA p fi).hash := by
  have hci : check_index dbB p (effMtime fi.mtimeRaw) fi.content.length
      = check_index dbA p (effMtime fi.mtimeRaw) fi.content.length := by
    unfold check_index
    rw [hidx]
  have hh : (fileOutcome B dbB p fi).hash = (fileOutcome B dbA p fi).hash := by
    simp only [fileOutcome, hci]
  refine ⟨?_, hh⟩
  have hn : (fileOutcome B dbB p fi).needs
      = should_backup_blob dbB (fileOutcome B dbB p fi).hash := by
    simp only [fileOutcome]
  rw [hn, hh]
  unfold should_backup_blob
  cases hl : lookupA dbB.blobs (fileOutcome B dbA p fi).hash with
  | none => rw [hl] at hblob; cases hblob
  | some v => rfl

/-- C6: for two consecutive backup runs over an unchanged source tree where
the first run succeeded and committed, the second run's plan has an empty
`new_files` and `total_size = 0`. -/
theorem second_run_empty (B : List Nat → Hash) (fs : FS) (db : Catalog)
    (dirs : List ScannedDir) :
    (runPipeline B fs (runOnce B fs db dirs) dirs).newFiles = [] ∧
    (runPipeline B fs (runOnce B fs db dirs) dirs).totalSize = 0 := by
  by_cases hnil : (runPipeline B fs db dirs).newFiles.isEmpty
  · have hdb2 : runOnce B fs db dirs = db := by
      unfold runOnce runBackup
      simp only [hnil, if_true]
    rw [hdb2]
    have hempty : (runPipeline B fs db dirs).newFiles = [] := by
      rwa [List.isEmpty_iff] at hnil
    exact ⟨hempty, totalZero B fs db (sortDirsDesc dirs) [] hempty⟩
  · have hstat : ∀ ph ∈ (runPipeline B fs db dirs).newFiles,
        (fs ph.1).isSome := by
      intro ph hph
      obtain ⟨p, hsh⟩ := ph
      obtain ⟨fi, hfi, -, -⟩ :=
        nfChar B fs db (sortDirsDesc dirs) [] p hsh hph
      simp [hfi]
    obtain ⟨evs, hevs⟩ :=
      wpe_total fs (runPipeline B fs db dirs).newFiles 0 0 hstat
    have hdb2 : runOnce B fs db dirs
        = commitDb db (locsOf 1 evs) (runPipeline B fs db dirs).newFiles fs := by
      unfold runOnce runBackup
      rw [if_neg hnil]
      rw [show TapeWriter.write_plan fs 1 none
          (runPipeline B fs db dirs).newFiles = .ok (evs, locsOf 1 evs)
        from by simp [TapeWriter.write_plan, hevs]]
      simp
    rw [hdb2]
    apply allClean
    intro d hd e he hdir fi hfi
    have huniq : ∀ h2, (e.path, h2) ∈ (runPipeline B fs db dirs).newFiles →
        h2 = (fileOutcome B db e.path fi).hash := by
      intro h2 hh2
      obtain ⟨fi2, hfi2, -, hh⟩ :=
        nfChar B fs db (sortDirsDesc dirs) [] e.path h2 hh2
      rw [hfi] at hfi2
      injection hfi2 with hfi2
      rw [← hfi2] at hh
      exact hh
    cases hneed : (fileOutcome B db e.path fi).needs with
    | true =>
      have hmem : (e.path, (fileOutcome B db e.path fi).hash)
          ∈ (runPipeline B fs db dirs).newFiles :=
        nfMem B fs db (sortDirsDesc dirs) [] d e fi hd he hdir hfi hneed
      have hinmap : e.path ∈ ((runPipeline B fs db dirs).newFiles.map
          Prod.fst) :=
        List.mem_map.mpr ⟨_, hmem, rfl⟩
      have hrow : lookupA (commitDb db (locsOf 1 evs)
          (runPipeline B fs db dirs).newFiles fs).index e.path
          = some ⟨effMtime fi.mtimeRaw, fi.content.length,
              (fileOutcome B db e.path fi).hash⟩ := by
        show lookupA ((runPipeline B fs db dirs).newFiles.foldl
          (commitIndexStep fs) db.index) e.path = _
        rw [commit_index_lookup fs e.path fi _ hfi
          (runPipeline B fs db dirs).newFiles db.index huniq]
        rw [if_pos hinmap]
      have hblob : (lookupA (commitDb db (locsOf 1 evs)
          (runPipeline B fs db dirs).newFiles fs).blobs
          (fileOutcome B db e.path fi).hash).isSome := by
        show (lookupA ((locsOf 1 evs).foldl
          (fun acc hl => upsert acc hl.1 hl.2) db.blobs) _).isSome
        apply blob_foldl_present
        apply locsOf_present
        rw [wpe_hashes fs none (runPipeline B fs db dirs).newFiles 0 0 evs hevs]
        exact List.mem_map.mpr ⟨_, hmem, rfl⟩
      exact (outcome_with_row B _ e.path fi _ hrow hblob).1
    | false =>
      have hnotin : ¬ (e.path ∈ ((runPipeline B fs db dirs).newFiles.map
          Prod.fst)) := by
        intro hin
        obtain ⟨ph, hph, hfst⟩ := List.mem_map.mp hin
        obtain ⟨p2, h2⟩ := ph
        simp only at hfst
        subst hfst
        obtain ⟨fi2, hfi2, hneeds2, -⟩ :=
          nfChar B fs db (sortDirsDesc dirs) [] e.path h2 hph
        rw [hfi] at hfi2
        injection hfi2 with hfi2
        rw [← hfi2] at hneeds2
        rw [hneed] at hneeds2
        cases hneeds2
      have hrow : lookupA (commitDb db (locsOf 1 evs)
          (runPipeline B fs db dirs).newFiles fs).index e.path
          = lookupA db.index e.path := by
        show lookupA ((runPipeline B fs db dirs).newFiles.foldl
          (commitIndexStep fs) db.index) e.path = _
        rw [commit_index_lookup fs e.path fi
          (fileOutcome B db e.path fi).hash hfi
          (runPipeline B fs db dirs).newFiles db.index huniq]
        rw [if_neg hnotin]
      have hblob1 : (lookupA db.blobs
          (fileOutcome B db e.path fi).hash).isSome := by
        have hsb : should_backup_blob db (fileOutcome B db e.path fi).hash
            = false := by
          have hn2 : (fileOutcome B db e.path fi).needs
              = should_backup_blob db (fileOutcome B db e.path fi).hash := by
            simp only [fileOutcome]
          rw [← hn2]
          exact hneed
        unfold should_backup_blob at hsb
        cases hl : lookupA db.blobs (fileOutcome B db e.path fi).hash with
        | none => rw [hl] at hsb; cases hsb
        | some v => rfl
      have hblob2 : (lookupA (commitDb db (locsOf 1 evs)
          (runPipeline B fs db dirs).newFiles fs).blobs
          (fileOutcome B db e.path fi).hash).isSome := by
        show (lookupA ((locsOf 1 evs).foldl
          (fun acc hl => upsert acc hl.1 hl.2) db.blobs) _).isSome
        exact blob_foldl_mono db.blobs (locsOf 1 evs) _ hblob1
      exact (outcome_same_index B db _ e.path fi hrow hblob2).1
